import Mathlib

/-!
Verification of the git-log-analysis tool (src/git-log-ai.ts).

Strings of the JavaScript source are modelled as `List Char` (`Str`).
Every definition is a direct shallow embedding of the corresponding
TypeScript function; side-effecting collaborators (the OpenAI chat
completion call, `JSON.parse`, the `package.json` read) are passed in
as explicit functional parameters.
-/

namespace GitLogAI

/-- JavaScript strings, modelled as lists of characters. -/
abbrev Str := List Char

/-- The set of code points that JavaScript `String.prototype.trim` and the
regex class `\s` treat as whitespace (WhiteSpace plus LineTerminator). -/
def isJSWhitespaceNat (n : Nat) : Bool :=
  n = 9 || n = 10 || n = 11 || n = 12 || n = 13 || n = 32 || n = 160 ||
  n = 0x1680 || (0x2000 ≤ n && n ≤ 0x200A) || n = 0x2028 || n = 0x2029 ||
  n = 0x202F || n = 0x205F || n = 0x3000 || n = 0xFEFF

/-- Whether a character is JavaScript whitespace. -/
def isJSWhitespace (c : Char) : Bool :=
  isJSWhitespaceNat c.toNat

/-- Model of JavaScript `String.prototype.trim`: remove leading and trailing
whitespace. -/
def jsTrim (s : Str) : Str :=
  (s.dropWhile isJSWhitespace).rdropWhile isJSWhitespace

/-- Model of JavaScript `String.prototype.toLowerCase` on the ASCII range
(the only range the meaningless-pattern check is sensitive to). -/
def jsToLower (s : Str) : Str :=
  s.map Char.toLower

/-- Model of JavaScript `str.split(sep)` for a one-character separator:
split at every occurrence, keeping empty pieces. -/
def splitOnChar (sep : Char) : Str → List Str
  | [] => [[]]
  | c :: rest =>
    let r := splitOnChar sep rest
    if c = sep then [] :: r
    else (c :: r.headI) :: r.tail

/-- Model of JavaScript `Array.prototype.join(sep)`. -/
def joinWith (sep : Str) : List Str → Str
  | [] => []
  | [x] => x
  | x :: y :: rest => x ++ sep ++ joinWith sep (y :: rest)

/-- One parsed commit (interface `CommitInfo` of the source). -/
structure CommitInfo where
  hash : Str
  date : Str
  author : Str
  email : Str
  subject : Str
  body : Str
deriving DecidableEq

/-- Parsing of one raw log line inside `fetchGitLog`: split on tabs,
take the first five fields positionally (missing fields default to the
empty string), and rebuild the body by tab-rejoining the remaining
fields and trimming the result. -/
def parseLine (line : Str) : CommitInfo :=
  let parts := splitOnChar '\t' line
  { hash := parts.getD 0 []
    date := parts.getD 1 []
    author := parts.getD 2 []
    email := parts.getD 3 []
    subject := parts.getD 4 []
    body := jsTrim (joinWith ['\t'] (parts.drop 5)) }

/-- The regex `^P\s*$` applied to a string: the literal pattern `P`
followed only by whitespace up to the end. -/
def bareFormMatch (p : Str) (s : Str) : Bool :=
  List.isPrefixOf p s && (s.drop p.length).all isJSWhitespace

/-- The `meaninglessPatterns` check of `fetchGitLog`: the ten anchored
regexes `^$`, `^\s*$`, `^\*\s*$` and the seven bare
conventional-commit-prefix patterns, tested against the lower-cased,
trimmed subject. -/
def isMeaningless (s : Str) : Bool :=
  decide (s = []) || bareFormMatch [] s || bareFormMatch ['*'] s ||
  bareFormMatch "feat:".data s || bareFormMatch "fix:".data s ||
  bareFormMatch "chore:".data s || bareFormMatch "docs:".data s ||
  bareFormMatch "style:".data s || bareFormMatch "refactor:".data s ||
  bareFormMatch "test:".data s

/-- The record-level filter predicate of `fetchGitLog` (the second
`.filter`), with the source's four early-return rejections in order. -/
def keepCommit (c : CommitInfo) : Bool :=
  if c.hash = [] ∨ c.date = [] ∨ c.author = [] ∨ c.subject = [] then false
  else if (jsTrim c.subject).length < 3 then false
  else if jsTrim c.author = [] ∨ jsTrim c.email = [] then false
  else if isMeaningless (jsTrim (jsToLower c.subject)) then false
  else true

/-- The pure core of `fetchGitLog`, as a function of the raw text emitted
by the underlying log query: split into lines, drop blank lines, parse
each line, and filter out invalid or meaningless records. -/
def fetchGitLog (output : Str) : List CommitInfo :=
  (((splitOnChar '\n' output).filter
      (fun line => decide (jsTrim line ≠ []))).map parseLine).filter keepCommit

/-- One structured analysis report (interface `ResumeAnalysis`),
partial (per batch) or merged. -/
structure ResumeAnalysis where
  summary : Str
  keyAchievements : List Str
  technicalSkills : List Str
  businessImpact : List Str
  problemSolving : List Str
  leadership : List Str
deriving DecidableEq

/-- Model of JavaScript `[...new Set(xs)]`: iterate over `xs`, keeping the
first occurrence of each element (a JS `Set` preserves insertion order),
with `seen` the elements already inserted. -/
def jsSetDedupAux {α : Type} [DecidableEq α] (seen : List α) : List α → List α
  | [] => []
  | a :: l =>
    if a ∈ seen then jsSetDedupAux seen l
    else a :: jsSetDedupAux (a :: seen) l

/-- `[...new Set(xs)]`. -/
def jsSetDedup {α : Type} [DecidableEq α] (xs : List α) : List α :=
  jsSetDedupAux [] xs

/-- `mergeBatchAnalyses`: join the summaries with single spaces, pool each
list field across the batches, then deduplicate via a `Set` and truncate
to the first five entries. -/
def mergeBatchAnalyses (analyses : List ResumeAnalysis) : ResumeAnalysis :=
  { summary := joinWith [' '] (analyses.map (fun a => a.summary))
    keyAchievements :=
      (jsSetDedup ((analyses.map (fun a => a.keyAchievements)).flatten)).take 5
    technicalSkills :=
      (jsSetDedup ((analyses.map (fun a => a.technicalSkills)).flatten)).take 5
    businessImpact :=
      (jsSetDedup ((analyses.map (fun a => a.businessImpact)).flatten)).take 5
    problemSolving :=
      (jsSetDedup ((analyses.map (fun a => a.problemSolving)).flatten)).take 5
    leadership :=
      (jsSetDedup ((analyses.map (fun a => a.leadership)).flatten)).take 5 }

/-- The batching loop of `analyzeCommitsWithGPT`
(`for (let i = 0; i < commits.length; i += batchSize)` with
`batchSize = 20`): pushes `commits.slice(i, i + 20)` for each index. -/
def batchLoop {α : Type} (commits : List α) (i : Nat) : List (List α) :=
  if i < commits.length then
    ((commits.drop i).take 20) :: batchLoop commits (i + 20)
  else []
termination_by commits.length - i
decreasing_by omega

/-- The batch partition built by `analyzeCommitsWithGPT`. -/
def makeBatches {α : Type} (commits : List α) : List (List α) :=
  batchLoop commits 0

/-- The error message thrown by `analyzeBatch` for a failed batch:
`배치 {batchNum} 분석 실패: {inner}`. -/
def batchFailMsg (batchNum : Nat) (inner : Str) : Str :=
  "배치 ".data ++ (Nat.repr batchNum).data ++ " 분석 실패: ".data ++ inner

/-- The message of the error thrown when the completion has no content. -/
def noResponseMsg : Str := "GPT 응답을 받지 못했습니다.".data

/-- `analyzeBatch`, with the OpenAI call abstracted as `respond`
(`batchNum` and the batch determine the prompt; the result is the
`choices[0]?.message?.content` of the completion, `none` when absent) and
`JSON.parse` abstracted as `parseJSON` (an `Except` carrying the parse
error's message).  Any error thrown inside is rewrapped as
`배치 {batchNum} 분석 실패: ...`. -/
def analyzeBatch (respond : Nat → List CommitInfo → Option Str)
    (parseJSON : Str → Except Str ResumeAnalysis)
    (batch : List CommitInfo) (batchNum : Nat) : Except Str ResumeAnalysis :=
  match respond batchNum batch with
  | none => .error (batchFailMsg batchNum noResponseMsg)
  | some text =>
    if text = [] then .error (batchFailMsg batchNum noResponseMsg)
    else
      match parseJSON text with
      | .error m => .error (batchFailMsg batchNum m)
      | .ok a => .ok a

/-- The sequential per-batch loop of `analyzeCommitsWithGPT`: batch at
0-based position `i` is analyzed as batch number `i + 1`; the first
thrown error aborts the whole loop, discarding every already-collected
partial result. -/
def runBatches (respond : Nat → List CommitInfo → Option Str)
    (parseJSON : Str → Except Str ResumeAnalysis) :
    List (List CommitInfo) → Nat → Except Str (List ResumeAnalysis)
  | [], _ => .ok []
  | b :: rest, i =>
    match analyzeBatch respond parseJSON b (i + 1) with
    | .error e => .error e
    | .ok a =>
      match runBatches respond parseJSON rest (i + 1) with
      | .error e => .error e
      | .ok as => .ok (a :: as)

/-- The message of the error thrown when the API key is absent. -/
def noApiKeyMsg : Str := "OPENAI_API_KEY 환경변수가 설정되지 않았습니다.".data

/-- `analyzeCommitsWithGPT`: check the API key, partition the commits into
batches of 20, analyze each batch in order (any failure aborts the whole
run), and merge the partial reports. -/
def analyzeCommitsWithGPT (apiKey : Option Str)
    (respond : Nat → List CommitInfo → Option Str)
    (parseJSON : Str → Except Str ResumeAnalysis)
    (commits : List CommitInfo) : Except Str ResumeAnalysis :=
  if apiKey = none ∨ apiKey = some [] then .error noApiKeyMsg
  else
    match runBatches respond parseJSON (makeBatches commits) 0 with
    | .error e => .error e
    | .ok analyses => .ok (mergeBatchAnalyses analyses)

/-- The fields of `package.json` that `getProjectContext` reads.  `none`
models an absent (`undefined`) field; dependency maps are modelled by
their key lists in insertion order (the order `Object.keys` yields). -/
structure PackageJson where
  name : Option Str
  description : Option Str
  dependencies : Option (List Str)
  devDependencies : Option (List Str)
deriving DecidableEq

/-- Outcome of the `package.json` read attempted by `getProjectContext`:
the file is absent, reading/parsing it throws, or it parses. -/
inductive PkgRead where
  | missing
  | unreadable
  | ok (pkg : PackageJson)
deriving DecidableEq

/-- The fallback text `getProjectContext` returns when no context is
available. -/
def contextUnavailableMsg : Str := "프로젝트 컨텍스트를 가져올 수 없습니다.".data

/-- A falsy-or-value JS field rendered with a default
(`packageJson.name || 'Unknown'`). -/
def orDefault (v : Option Str) (d : Str) : Str :=
  match v with
  | none => d
  | some s => if s = [] then d else s

/-- `getProjectContext`, with the filesystem read abstracted as a
`PkgRead`: on a successful read it renders the project name, description,
the first 10 runtime dependency names and the first 5 development
dependency names; a missing file falls through to the fallback text and a
thrown read/parse error is caught and also yields the fallback text. -/
def getProjectContext (r : PkgRead) : Str :=
  match r with
  | .missing => contextUnavailableMsg
  | .unreadable => contextUnavailableMsg
  | .ok pkg =>
    "프로젝트명: ".data ++ orDefault pkg.name "Unknown".data ++
    "\n설명: ".data ++ orDefault pkg.description "No description".data ++
    "\n주요 의존성: ".data ++
      joinWith ", ".data ((pkg.dependencies.getD []).take 10) ++
    "\n개발 의존성: ".data ++
      joinWith ", ".data ((pkg.devDependencies.getD []).take 5)

/-- Re-serialization of a filtered commit back to the tab-delimited line
format produced by the log query
(`hash TAB date TAB author TAB email TAB subject TAB body`). -/
def serializeLine (c : CommitInfo) : Str :=
  c.hash ++ '\t' :: c.date ++ '\t' :: c.author ++ '\t' :: c.email ++
  '\t' :: c.subject ++ '\t' :: c.body

/-- Re-serialization of a commit list to raw log-query output, one line
per commit. -/
def serializeCommits (cs : List CommitInfo) : Str :=
  joinWith ['\n'] (cs.map serializeLine)

/-- Modelled from the spec: an order-preserving deduplication described as
"deduplicate preserving first-seen order" — fold left, appending an
element only when it is not yet present. -/
def dedupFirstSeen {α : Type} [DecidableEq α] (xs : List α) : List α :=
  xs.foldl (fun acc a => if a ∈ acc then acc else acc ++ [a]) []

/-- Modelled from the spec (claim about pattern-set refinement): the
meaningless-subject check restricted to the seven bare
conventional-commit-prefix patterns only. -/
def isMeaninglessSeven (s : Str) : Bool :=
  bareFormMatch "feat:".data s || bareFormMatch "fix:".data s ||
  bareFormMatch "chore:".data s || bareFormMatch "docs:".data s ||
  bareFormMatch "style:".data s || bareFormMatch "refactor:".data s ||
  bareFormMatch "test:".data s

/-- The commit filter with `isMeaninglessSeven` in place of the full
ten-pattern check. -/
def keepCommitSeven (c : CommitInfo) : Bool :=
  if c.hash = [] ∨ c.date = [] ∨ c.author = [] ∨ c.subject = [] then false
  else if (jsTrim c.subject).length < 3 then false
  else if jsTrim c.author = [] ∨ jsTrim c.email = [] then false
  else if isMeaninglessSeven (jsTrim (jsToLower c.subject)) then false
  else true

/-- `fetchGitLog` with the reduced seven-pattern meaningless check. -/
def fetchGitLogSeven (output : Str) : List CommitInfo :=
  (((splitOnChar '\n' output).filter
      (fun line => decide (jsTrim line ≠ []))).map parseLine).filter keepCommitSeven

/-! ### Lemmas about `splitOnChar` and `joinWith` -/

theorem splitOnChar_ne_nil (sep : Char) (s : Str) : splitOnChar sep s ≠ [] := by
  cases s with
  | nil => simp [splitOnChar]
  | cons c rest =>
    simp only [splitOnChar]
    split <;> simp

theorem splitOnChar_cons (sep c : Char) (rest : Str) :
    splitOnChar sep (c :: rest) =
      if c = sep then [] :: splitOnChar sep rest
      else (c :: (splitOnChar sep rest).headI) :: (splitOnChar sep rest).tail :=
  rfl

theorem sep_not_mem_of_mem_splitOnChar {sep : Char} {s x : Str}
    (hx : x ∈ splitOnChar sep s) : sep ∉ x := by
  induction s generalizing x with
  | nil =>
    simp only [splitOnChar, List.mem_singleton] at hx
    subst hx; simp
  | cons c rest ih =>
    rcases hr : splitOnChar sep rest with _ | ⟨h, t⟩
    · exact absurd hr (splitOnChar_ne_nil sep rest)
    · have hh : h ∈ splitOnChar sep rest := by rw [hr]; exact List.mem_cons_self h t
      rw [splitOnChar_cons, hr] at hx
      simp only [List.headI, List.tail_cons] at hx
      by_cases hc : c = sep
      · rw [if_pos hc] at hx
        rcases List.mem_cons.mp hx with h1 | h1
        · subst h1; simp
        · exact ih (hr ▸ h1)
      · rw [if_neg hc] at hx
        rcases List.mem_cons.mp hx with h1 | h1
        · subst h1
          intro hmem
          rcases List.mem_cons.mp hmem with h2 | h2
          · exact hc h2.symm
          · exact ih hh h2
        · exact ih (hr ▸ List.mem_cons_of_mem h h1)

theorem chars_subset_of_mem_splitOnChar {sep : Char} {s x : Str}
    (hx : x ∈ splitOnChar sep s) : ∀ c ∈ x, c ∈ s := by
  induction s generalizing x with
  | nil =>
    simp only [splitOnChar, List.mem_singleton] at hx
    subst hx; simp
  | cons c rest ih =>
    intro d hd
    rcases hr : splitOnChar sep rest with _ | ⟨h, t⟩
    · exact absurd hr (splitOnChar_ne_nil sep rest)
    · have hh : h ∈ splitOnChar sep rest := by rw [hr]; exact List.mem_cons_self h t
      rw [splitOnChar_cons, hr] at hx
      simp only [List.headI, List.tail_cons] at hx
      by_cases hc : c = sep
      · rw [if_pos hc] at hx
        rcases List.mem_cons.mp hx with h1 | h1
        · subst h1; simp at hd
        · exact List.mem_cons_of_mem c (ih (hr ▸ h1) d hd)
      · rw [if_neg hc] at hx
        rcases List.mem_cons.mp hx with h1 | h1
        · subst h1
          rcases List.mem_cons.mp hd with h2 | h2
          · exact h2 ▸ List.mem_cons_self c rest
          · exact List.mem_cons_of_mem c (ih hh d h2)
        · exact List.mem_cons_of_mem c
            (ih (hr ▸ List.mem_cons_of_mem h h1) d hd)

theorem splitOnChar_of_not_mem {sep : Char} {s : Str} (h : sep ∉ s) :
    splitOnChar sep s = [s] := by
  induction s with
  | nil => rfl
  | cons c rest ih =>
    have hc : c ≠ sep := fun hc => h (hc ▸ List.mem_cons_self c rest)
    have hrest : sep ∉ rest := fun hm => h (List.mem_cons_of_mem c hm)
    rw [splitOnChar_cons, if_neg hc, ih hrest]
    simp

theorem splitOnChar_append {sep : Char} {x : Str} (rest : Str) (h : sep ∉ x) :
    splitOnChar sep (x ++ sep :: rest) = x :: splitOnChar sep rest := by
  induction x with
  | nil => simp [splitOnChar_cons]
  | cons a x' ih =>
    have ha : a ≠ sep := fun hc => h (hc ▸ List.mem_cons_self a x')
    have hx' : sep ∉ x' := fun hm => h (List.mem_cons_of_mem a hm)
    rw [List.cons_append, splitOnChar_cons, if_neg ha, ih hx']
    simp

theorem joinWith_splitOnChar (sep : Char) (s : Str) :
    joinWith [sep] (splitOnChar sep s) = s := by
  induction s with
  | nil => rfl
  | cons c rest ih =>
    rcases hr : splitOnChar sep rest with _ | ⟨h, t⟩
    · exact absurd hr (splitOnChar_ne_nil sep rest)
    · rw [splitOnChar_cons, hr]
      by_cases hc : c = sep
      · rw [if_pos hc, hc]
        rw [hr] at ih
        cases t with
        | nil => simpa [joinWith] using ih
        | cons y t' => simpa [joinWith] using ih
      · rw [if_neg hc]
        rw [hr] at ih
        cases t with
        | nil => simpa [joinWith] using ih
        | cons y t' =>
          simp only [List.headI, List.tail_cons, joinWith] at ih ⊢
          rw [List.cons_append, List.cons_append, ih]

theorem splitOnChar_joinWith {sep : Char} {lines : List Str}
    (hno : ∀ x ∈ lines, sep ∉ x) (hne : lines ≠ []) :
    splitOnChar sep (joinWith [sep] lines) = lines := by
  induction lines with
  | nil => exact absurd rfl hne
  | cons x ys ih =>
    cases ys with
    | nil =>
      simpa [joinWith] using splitOnChar_of_not_mem (hno x (List.mem_cons_self x []))
    | cons y rest =>
      have hx : sep ∉ x := hno x (List.mem_cons_self x _)
      have hys : ∀ z ∈ y :: rest, sep ∉ z := fun z hz =>
        hno z (List.mem_cons_of_mem x hz)
      have : joinWith [sep] (x :: y :: rest) = x ++ sep :: joinWith [sep] (y :: rest) := by
        simp [joinWith]
      rw [this, splitOnChar_append _ hx, ih hys (by simp)]

theorem mem_joinWith {sep : Str} {xs : List Str} {c : Char}
    (h : c ∈ joinWith sep xs) : c ∈ sep ∨ ∃ x ∈ xs, c ∈ x := by
  induction xs with
  | nil => simp [joinWith] at h
  | cons x ys ih =>
    cases ys with
    | nil =>
      simp only [joinWith] at h
      exact Or.inr ⟨x, List.mem_cons_self x [], h⟩
    | cons y rest =>
      simp only [joinWith] at h
      rcases List.mem_append.mp h with h1 | h1
      · rcases List.mem_append.mp h1 with h2 | h2
        · exact Or.inr ⟨x, List.mem_cons_self x _, h2⟩
        · exact Or.inl h2
      · rcases ih h1 with h2 | ⟨z, hz, hcz⟩
        · exact Or.inl h2
        · exact Or.inr ⟨z, List.mem_cons_of_mem x hz, hcz⟩

/-! ### Lemmas about `jsTrim` -/

theorem dropWhile_eq_self_of_front {p : Char → Bool} {s t : Str}
    (h : List.dropWhile p s = s) (ht : t <+: s) : List.dropWhile p t = t := by
  cases t with
  | nil => rfl
  | cons a t' =>
    obtain ⟨u, hu⟩ := ht
    have hs : s = a :: (t' ++ u) := by rw [← hu]; simp
    rw [hs, List.dropWhile_cons] at h
    have hpa : p a = false := by
      by_contra hpa
      rw [Bool.not_eq_false] at hpa
      rw [if_pos hpa] at h
      have hlen : ∀ l : List Char, (List.dropWhile p l).length ≤ l.length := by
        intro l
        induction l with
        | nil => simp
        | cons b m ih =>
          rw [List.dropWhile_cons]
          split
          · simp
            omega
          · simp
      have := hlen (t' ++ u)
      rw [h] at this
      simp at this
    rw [List.dropWhile_cons, hpa]
    simp

theorem jsTrim_idempotent (s : Str) : jsTrim (jsTrim s) = jsTrim s := by
  unfold jsTrim
  rw [dropWhile_eq_self_of_front (List.dropWhile_idempotent _ _)
        (List.rdropWhile_prefix _ _),
      List.rdropWhile_idempotent]

theorem jsTrim_eq_nil_iff {s : Str} :
    jsTrim s = [] ↔ ∀ c ∈ s, isJSWhitespace c := by
  unfold jsTrim
  rw [List.rdropWhile_eq_nil_iff]
  constructor
  · intro h c hc
    rw [← List.takeWhile_append_dropWhile (p := isJSWhitespace) (l := s)] at hc
    rcases List.mem_append.mp hc with h1 | h1
    · exact List.mem_takeWhile_imp h1
    · exact h c h1
  · intro h c hc
    have : c ∈ s := by
      rw [← List.takeWhile_append_dropWhile (p := isJSWhitespace) (l := s)]
      exact List.mem_append.mpr (Or.inr hc)
    exact h c this

theorem mem_of_mem_jsTrim {s : Str} {c : Char} (h : c ∈ jsTrim s) : c ∈ s := by
  unfold jsTrim at h
  have h1 : c ∈ s.dropWhile isJSWhitespace :=
    (List.rdropWhile_prefix _ _).subset h
  rw [← List.takeWhile_append_dropWhile (p := isJSWhitespace) (l := s)]
  exact List.mem_append.mpr (Or.inr h1)

theorem jsTrim_ne_nil_of_exists {s : Str} {c : Char} (hc : c ∈ s)
    (hw : ¬isJSWhitespace c) : jsTrim s ≠ [] := by
  intro h
  exact hw (jsTrim_eq_nil_iff.mp h c hc)

/-! ### Lemmas about `jsSetDedup` -/

theorem mem_jsSetDedupAux {α : Type} [DecidableEq α] (l : List α) :
    ∀ (seen : List α) (x : α),
      x ∈ jsSetDedupAux seen l ↔ x ∈ l ∧ x ∉ seen := by
  induction l with
  | nil => intro seen x; simp [jsSetDedupAux]
  | cons a l ih =>
    intro seen x
    by_cases ha : a ∈ seen
    · rw [jsSetDedupAux, if_pos ha, ih]
      constructor
      · rintro ⟨h1, h2⟩
        exact ⟨List.mem_cons_of_mem a h1, h2⟩
      · rintro ⟨h1, h2⟩
        rcases List.mem_cons.mp h1 with h3 | h3
        · exact absurd (h3 ▸ ha) h2
        · exact ⟨h3, h2⟩
    · rw [jsSetDedupAux, if_neg ha]
      rw [List.mem_cons, ih]
      constructor
      · rintro (h1 | ⟨h1, h2⟩)
        · exact ⟨h1 ▸ List.mem_cons_self a l, h1 ▸ ha⟩
        · refine ⟨List.mem_cons_of_mem a h1, ?_⟩
          intro hx
          exact h2 (List.mem_cons_of_mem a hx)
      · rintro ⟨h1, h2⟩
        rcases List.mem_cons.mp h1 with h3 | h3
        · exact Or.inl h3
        · by_cases hxa : x = a
          · exact Or.inl hxa
          · refine Or.inr ⟨h3, ?_⟩
            intro hx
            rcases List.mem_cons.mp hx with h4 | h4
            · exact hxa h4
            · exact h2 h4

theorem mem_jsSetDedup {α : Type} [DecidableEq α] {l : List α} {x : α} :
    x ∈ jsSetDedup l ↔ x ∈ l := by
  rw [jsSetDedup, mem_jsSetDedupAux]
  simp

theorem nodup_jsSetDedupAux {α : Type} [DecidableEq α] (l : List α) :
    ∀ seen : List α, (jsSetDedupAux seen l).Nodup := by
  induction l with
  | nil => intro seen; simp [jsSetDedupAux]
  | cons a l ih =>
    intro seen
    by_cases ha : a ∈ seen
    · rw [jsSetDedupAux, if_pos ha]; exact ih seen
    · rw [jsSetDedupAux, if_neg ha]
      refine List.Nodup.cons ?_ (ih (a :: seen))
      intro hmem
      exact ((mem_jsSetDedupAux l (a :: seen) a).mp hmem).2 (List.mem_cons_self a seen)

theorem nodup_jsSetDedup {α : Type} [DecidableEq α] (l : List α) :
    (jsSetDedup l).Nodup :=
  nodup_jsSetDedupAux l []

theorem jsSetDedupAux_eq_foldl {α : Type} [DecidableEq α] (l : List α) :
    ∀ (seen acc : List α), (∀ x, x ∈ seen ↔ x ∈ acc) →
      acc ++ jsSetDedupAux seen l =
        l.foldl (fun acc a => if a ∈ acc then acc else acc ++ [a]) acc := by
  induction l with
  | nil => intro seen acc _; simp [jsSetDedupAux]
  | cons a l ih =>
    intro seen acc hiff
    rw [List.foldl_cons]
    by_cases ha : a ∈ seen
    · rw [jsSetDedupAux, if_pos ha, if_pos ((hiff a).mp ha)]
      exact ih seen acc hiff
    · rw [jsSetDedupAux, if_neg ha, if_neg (fun h => ha ((hiff a).mpr h))]
      have : acc ++ a :: jsSetDedupAux (a :: seen) l =
          (acc ++ [a]) ++ jsSetDedupAux (a :: seen) l := by
        simp
      rw [this]
      refine ih (a :: seen) (acc ++ [a]) ?_
      intro x
      simp [hiff x, or_comm]

theorem jsSetDedup_eq_dedupFirstSeen {α : Type} [DecidableEq α] (l : List α) :
    jsSetDedup l = dedupFirstSeen l := by
  have := jsSetDedupAux_eq_foldl l [] [] (by simp)
  simpa [jsSetDedup, dedupFirstSeen] using this

theorem length_take_jsSetDedup_le {α : Type} [DecidableEq α] (l : List α) :
    ((jsSetDedup l).take 5).length ≤ 5 := by
  simp

theorem nodup_take_jsSetDedup {α : Type} [DecidableEq α] (l : List α) :
    ((jsSetDedup l).take 5).Nodup :=
  (nodup_jsSetDedup l).sublist (List.take_sublist 5 _)

theorem jsSetDedup_comm_perm {α : Type} [DecidableEq α] (l1 l2 : List α) :
    (jsSetDedup (l1 ++ l2)).Perm (jsSetDedup (l2 ++ l1)) := by
  rw [List.perm_ext_iff_of_nodup (nodup_jsSetDedup _) (nodup_jsSetDedup _)]
  intro a
  rw [mem_jsSetDedup, mem_jsSetDedup, List.mem_append, List.mem_append, or_comm]

theorem take_jsSetDedup_comm_of_small {α : Type} [DecidableEq α]
    (l1 l2 : List α) (h : (jsSetDedup (l1 ++ l2)).length ≤ 5) (x : α) :
    x ∈ (jsSetDedup (l1 ++ l2)).take 5 ↔ x ∈ (jsSetDedup (l2 ++ l1)).take 5 := by
  have hperm := jsSetDedup_comm_perm l1 l2
  have h2 : (jsSetDedup (l2 ++ l1)).length ≤ 5 := hperm.length_eq ▸ h
  rw [List.take_of_length_le h, List.take_of_length_le h2,
    mem_jsSetDedup, mem_jsSetDedup, List.mem_append, List.mem_append, or_comm]

/-! ### Lemmas about the batch partition -/

theorem batchLoop_eq {α : Type} (commits : List α) (i : Nat) :
    batchLoop commits i =
      if i < commits.length then
        ((commits.drop i).take 20) :: batchLoop commits (i + 20)
      else [] := by
  rw [batchLoop]

theorem batchLoop_flatten {α : Type} (commits : List α) :
    ∀ (n i : Nat), commits.length - i ≤ n →
      (batchLoop commits i).flatten = commits.drop i := by
  intro n
  induction n with
  | zero =>
    intro i hi
    rw [batchLoop_eq, if_neg (by omega)]
    have : commits.length ≤ i := by omega
    simp [List.drop_eq_nil_of_le this]
  | succ n ih =>
    intro i hi
    by_cases hlt : i < commits.length
    · rw [batchLoop_eq, if_pos hlt]
      rw [List.flatten_cons, ih (i + 20) (by omega)]
      rw [← List.drop_drop, List.take_append_drop]
    · rw [batchLoop_eq, if_neg hlt]
      have : commits.length ≤ i := by omega
      simp [List.drop_eq_nil_of_le this]

theorem batchLoop_sizes {α : Type} (commits : List α) :
    ∀ (n i : Nat), commits.length - i ≤ n →
      ∀ b ∈ batchLoop commits i, 1 ≤ b.length ∧ b.length ≤ 20 := by
  intro n
  induction n with
  | zero =>
    intro i hi b hb
    rw [batchLoop_eq, if_neg (by omega)] at hb
    simp at hb
  | succ n ih =>
    intro i hi b hb
    by_cases hlt : i < commits.length
    · rw [batchLoop_eq, if_pos hlt] at hb
      rcases List.mem_cons.mp hb with h1 | h1
      · subst h1
        rw [List.length_take, List.length_drop]
        omega
      · exact ih (i + 20) (by omega) b h1
    · rw [batchLoop_eq, if_neg hlt] at hb
      simp at hb

theorem batchLoop_full_but_last {α : Type} (commits : List α) :
    ∀ (n i : Nat), commits.length - i ≤ n →
      ∀ b ∈ (batchLoop commits i).dropLast, b.length = 20 := by
  intro n
  induction n with
  | zero =>
    intro i hi b hb
    rw [batchLoop_eq, if_neg (by omega)] at hb
    simp at hb
  | succ n ih =>
    intro i hi b hb
    by_cases hlt : i < commits.length
    · rw [batchLoop_eq, if_pos hlt] at hb
      rcases hr : batchLoop commits (i + 20) with _ | ⟨x, xs⟩
      · rw [hr] at hb
        simp at hb
      · rw [hr, List.dropLast_cons₂, List.mem_cons] at hb
        rcases hb with h1 | h1
        · subst h1
          have h20 : i + 20 < commits.length := by
            by_contra hc
            rw [batchLoop_eq, if_neg hc] at hr
            exact List.cons_ne_nil x xs hr.symm
          rw [List.length_take, List.length_drop]
          omega
        · exact ih (i + 20) (by omega) b (hr ▸ h1)
    · rw [batchLoop_eq, if_neg hlt] at hb
      simp at hb

/-! ### Lemmas about lower-casing and the meaningless patterns -/

theorem charOfNat_toNat_lower {n : Nat} (h1 : 97 ≤ n) (h2 : n ≤ 122) :
    (Char.ofNat n).toNat = n := by
  interval_cases n <;> decide

theorem isJSWhitespaceNat_false_of_alpha {n : Nat} (h1 : 65 ≤ n) (h2 : n ≤ 122) :
    isJSWhitespaceNat n = false := by
  simp only [isJSWhitespaceNat, Bool.or_eq_false_iff, decide_eq_false_iff_not,
    Bool.and_eq_false_iff]
  omega

theorem isJSWhitespace_toLower (c : Char) :
    isJSWhitespace (Char.toLower c) = isJSWhitespace c := by
  have hdef : Char.toLower c =
      if c.toNat ≥ 65 ∧ c.toNat ≤ 90 then Char.ofNat (c.toNat + 32) else c := rfl
  rw [hdef]
  by_cases h : c.toNat ≥ 65 ∧ c.toNat ≤ 90
  · rw [if_pos h]
    unfold isJSWhitespace
    rw [charOfNat_toNat_lower (by omega) (by omega)]
    rw [isJSWhitespaceNat_false_of_alpha (n := c.toNat + 32) (by omega) (by omega),
        isJSWhitespaceNat_false_of_alpha (n := c.toNat) (by omega) (by omega)]
  · rw [if_neg h]

theorem jsTrim_jsToLower (s : Str) :
    jsTrim (jsToLower s) = jsToLower (jsTrim s) := by
  have hws : (isJSWhitespace ∘ Char.toLower) = isJSWhitespace := by
    funext c
    exact isJSWhitespace_toLower c
  unfold jsTrim jsToLower List.rdropWhile
  rw [List.dropWhile_map, hws, ← List.map_reverse, List.dropWhile_map, hws,
    ← List.map_reverse]

theorem length_jsTrim_jsToLower (s : Str) :
    (jsTrim (jsToLower s)).length = (jsTrim s).length := by
  rw [jsTrim_jsToLower]
  simp [jsToLower]

theorem jsTrim_no_ws_suffix {s : Str} {k : Nat} (hk : k < (jsTrim s).length)
    (h : ∀ c ∈ (jsTrim s).drop k, isJSWhitespace c) : False := by
  have htne : jsTrim s ≠ [] := by
    intro h0
    rw [h0] at hk
    simp at hk
  have hlast : ¬isJSWhitespace ((jsTrim s).getLast htne) :=
    List.rdropWhile_last_not _ _ htne
  have hdne : (jsTrim s).drop k ≠ [] := by
    intro h0
    have := List.length_drop k (jsTrim s)
    rw [h0] at this
    simp at this
    omega
  have hsplit : (jsTrim s).take k ++ (jsTrim s).drop k = jsTrim s :=
    List.take_append_drop k _
  have hq : (jsTrim s).getLast? = some ((jsTrim s).getLast htne) :=
    List.getLast?_eq_getLast _ htne
  have hq3 : ((jsTrim s).drop k).getLast? =
      some (((jsTrim s).drop k).getLast hdne) :=
    List.getLast?_eq_getLast _ hdne
  have hq2 : (jsTrim s).getLast? = ((jsTrim s).drop k).getLast? := by
    conv_lhs => rw [← hsplit]
    exact List.getLast?_append_of_ne_nil _ hdne
  rw [hq, hq3] at hq2
  have heq := Option.some.inj hq2
  exact hlast (heq ▸ h _ (List.getLast_mem hdne))

theorem isMeaningless_eq_seven {subj : Str}
    (hlen : ¬(jsTrim subj).length < 3) :
    isMeaningless (jsTrim (jsToLower subj)) =
      isMeaninglessSeven (jsTrim (jsToLower subj)) := by
  have hlen3 : 3 ≤ (jsTrim (jsToLower subj)).length := by
    rw [length_jsTrim_jsToLower]
    omega
  have e1 : decide (jsTrim (jsToLower subj) = []) = false := by
    simp only [decide_eq_false_iff_not]
    intro h0
    rw [h0] at hlen3
    simp at hlen3
  have e2 : bareFormMatch [] (jsTrim (jsToLower subj)) = false := by
    by_contra h
    rw [Bool.not_eq_false, bareFormMatch, Bool.and_eq_true] at h
    refine jsTrim_no_ws_suffix (s := jsToLower subj) (k := 0) (by omega) ?_
    intro c hc
    exact (List.all_eq_true.mp h.2) c (by simpa using hc)
  have e3 : bareFormMatch ['*'] (jsTrim (jsToLower subj)) = false := by
    by_contra h
    rw [Bool.not_eq_false, bareFormMatch, Bool.and_eq_true] at h
    refine jsTrim_no_ws_suffix (s := jsToLower subj) (k := 1) (by omega) ?_
    intro c hc
    exact (List.all_eq_true.mp h.2) c (by simpa using hc)
  rw [isMeaningless, isMeaninglessSeven, e1, e2, e3]
  simp

theorem keepCommit_eq_keepCommitSeven (c : CommitInfo) :
    keepCommit c = keepCommitSeven c := by
  unfold keepCommit keepCommitSeven
  by_cases h1 : c.hash = [] ∨ c.date = [] ∨ c.author = [] ∨ c.subject = []
  · rw [if_pos h1, if_pos h1]
  · rw [if_neg h1, if_neg h1]
    by_cases h2 : (jsTrim c.subject).length < 3
    · rw [if_pos h2, if_pos h2]
    · rw [if_neg h2, if_neg h2, isMeaningless_eq_seven h2]

/-! ### The filter predicate, unfolded -/

theorem keepCommit_eq_true_iff (c : CommitInfo) :
    keepCommit c = true ↔
      c.hash ≠ [] ∧ c.date ≠ [] ∧ c.author ≠ [] ∧ c.subject ≠ [] ∧
      3 ≤ (jsTrim c.subject).length ∧
      jsTrim c.author ≠ [] ∧ jsTrim c.email ≠ [] ∧
      isMeaningless (jsTrim (jsToLower c.subject)) = false := by
  unfold keepCommit
  split_ifs with h1 h2 h3 h4
  · simp only [false_iff]
    rintro ⟨ha, hb, hc, hd, -⟩
    rcases h1 with h | h | h | h <;> contradiction
  · simp only [false_iff]
    rintro ⟨-, -, -, -, hlen, -⟩
    omega
  · simp only [false_iff]
    rintro ⟨-, -, -, -, -, ha, hb, -⟩
    rcases h3 with h | h <;> contradiction
  · simp only [false_iff]
    rintro ⟨-, -, -, -, -, -, -, hm⟩
    rw [h4] at hm
    exact absurd hm (by decide)
  · simp only [true_iff]
    push_neg at h1 h3
    exact ⟨h1.1, h1.2.1, h1.2.2.1, h1.2.2.2, by omega, h3.1, h3.2,
      Bool.eq_false_iff.mpr h4⟩

/-! ### Well-formedness of parsed commits and the serialization roundtrip -/

/-- Structural facts true of every record `parseLine` builds from a
newline-free raw line: the five positional fields are tab-free, no field
contains a newline, and the body is already trimmed. -/
structure WellFormed (c : CommitInfo) : Prop where
  hashTab : '\t' ∉ c.hash
  dateTab : '\t' ∉ c.date
  authorTab : '\t' ∉ c.author
  emailTab : '\t' ∉ c.email
  subjectTab : '\t' ∉ c.subject
  hashNl : '\n' ∉ c.hash
  dateNl : '\n' ∉ c.date
  authorNl : '\n' ∉ c.author
  emailNl : '\n' ∉ c.email
  subjectNl : '\n' ∉ c.subject
  bodyNl : '\n' ∉ c.body
  bodyTrim : jsTrim c.body = c.body

theorem parseLine_def (line : Str) :
    parseLine line =
      { hash := (splitOnChar '\t' line).getD 0 []
        date := (splitOnChar '\t' line).getD 1 []
        author := (splitOnChar '\t' line).getD 2 []
        email := (splitOnChar '\t' line).getD 3 []
        subject := (splitOnChar '\t' line).getD 4 []
        body := jsTrim (joinWith ['\t'] ((splitOnChar '\t' line).drop 5)) } :=
  rfl

theorem getD_eq_default_or_mem {α : Type} (l : List α) (i : Nat) (d : α) :
    l.getD i d = d ∨ l.getD i d ∈ l := by
  induction l generalizing i with
  | nil => left; simp [List.getD]
  | cons a t ih =>
    cases i with
    | zero => right; simp [List.getD]
    | succ i =>
      have : (a :: t).getD (i + 1) d = t.getD i d := by simp [List.getD]
      rw [this]
      rcases ih i with h | h
      · exact Or.inl h
      · exact Or.inr (List.mem_cons_of_mem a h)

theorem parseLine_wellFormed {line : Str} (h : '\n' ∉ line) :
    WellFormed (parseLine line) := by
  have hTabFree : ∀ x ∈ splitOnChar '\t' line, '\t' ∉ x := fun x hx =>
    sep_not_mem_of_mem_splitOnChar hx
  have hNlFree : ∀ x ∈ splitOnChar '\t' line, '\n' ∉ x := fun x hx hmem =>
    h (chars_subset_of_mem_splitOnChar hx _ hmem)
  have field : ∀ i, ('\t' ∉ (splitOnChar '\t' line).getD i []) ∧
      ('\n' ∉ (splitOnChar '\t' line).getD i []) := by
    intro i
    rcases getD_eq_default_or_mem (splitOnChar '\t' line) i [] with h0 | h0
    · rw [h0]; exact ⟨by simp, by simp⟩
    · exact ⟨hTabFree _ h0, hNlFree _ h0⟩
  rw [parseLine_def]
  refine ⟨(field 0).1, (field 1).1, (field 2).1, (field 3).1, (field 4).1,
          (field 0).2, (field 1).2, (field 2).2, (field 3).2, (field 4).2,
          ?_, jsTrim_idempotent _⟩
  intro hmem
  have h1 : '\n' ∈ joinWith ['\t'] ((splitOnChar '\t' line).drop 5) :=
    mem_of_mem_jsTrim hmem
  rcases mem_joinWith h1 with h2 | ⟨x, hx, h3⟩
  · simp at h2
  · exact hNlFree x (List.drop_subset _ _ hx) h3

theorem serializeLine_split {c : CommitInfo} (hc : WellFormed c) :
    splitOnChar '\t' (serializeLine c) =
      c.hash :: c.date :: c.author :: c.email :: c.subject ::
        splitOnChar '\t' c.body := by
  unfold serializeLine
  simp only [List.append_assoc, List.cons_append]
  rw [splitOnChar_append _ hc.hashTab, splitOnChar_append _ hc.dateTab,
    splitOnChar_append _ hc.authorTab, splitOnChar_append _ hc.emailTab,
    splitOnChar_append _ hc.subjectTab]

theorem parseLine_serializeLine {c : CommitInfo} (hc : WellFormed c) :
    parseLine (serializeLine c) = c := by
  obtain ⟨h0, d0, a0, e0, s0, b0⟩ := c
  rw [parseLine_def, serializeLine_split hc]
  simp only [List.getD_cons_zero, List.getD_cons_succ]
  have hdrop :
      (h0 :: d0 :: a0 :: e0 :: s0 :: splitOnChar '\t' b0).drop 5 =
        splitOnChar '\t' b0 := rfl
  rw [hdrop, joinWith_splitOnChar, hc.bodyTrim]

theorem mem_fetchGitLog {raw : Str} {c : CommitInfo} (hc : c ∈ fetchGitLog raw) :
    keepCommit c = true ∧ WellFormed c := by
  unfold fetchGitLog at hc
  rcases List.mem_filter.mp hc with ⟨hc1, hkeep⟩
  refine ⟨hkeep, ?_⟩
  rcases List.mem_map.mp hc1 with ⟨line, hline, rfl⟩
  rcases List.mem_filter.mp hline with ⟨hline2, -⟩
  exact parseLine_wellFormed (sep_not_mem_of_mem_splitOnChar hline2)

theorem serializeLine_nonblank {c : CommitInfo} (hk : keepCommit c = true) :
    jsTrim (serializeLine c) ≠ [] := by
  have h := (keepCommit_eq_true_iff c).mp hk
  have hlen : 3 ≤ (jsTrim c.subject).length := h.2.2.2.2.1
  have hne : jsTrim c.subject ≠ [] := by
    intro h0
    rw [h0] at hlen
    simp at hlen
  have hex : ¬∀ ch ∈ c.subject, isJSWhitespace ch := by
    intro hall
    exact hne (jsTrim_eq_nil_iff.mpr hall)
  push_neg at hex
  obtain ⟨ch, hch, hw⟩ := hex
  refine jsTrim_ne_nil_of_exists (s := serializeLine c) ?_ hw
  unfold serializeLine
  simp only [List.mem_append, List.mem_cons]
  tauto

theorem serializeLine_no_newline {c : CommitInfo} (hwf : WellFormed c) :
    '\n' ∉ serializeLine c := by
  obtain ⟨ht1, ht2, ht3, ht4, ht5, hn1, hn2, hn3, hn4, hn5, hn6, htr⟩ := hwf
  intro hmem
  have hne : ('\n' : Char) ≠ '\t' := by decide
  simp only [serializeLine, List.mem_append, List.mem_cons] at hmem
  tauto

theorem fetchGitLog_def (output : Str) :
    fetchGitLog output =
      (((splitOnChar '\n' output).filter
          (fun line => decide (jsTrim line ≠ []))).map parseLine).filter
        keepCommit :=
  rfl

theorem fetchGitLog_idempotent_aux {out : List CommitInfo}
    (hfacts : ∀ c ∈ out, keepCommit c = true ∧ WellFormed c) :
    fetchGitLog (serializeCommits out) = out := by
  rcases hsh : out with _ | ⟨c0, cs⟩
  · show fetchGitLog (serializeCommits []) = []
    decide
  · rw [← hsh]
    have hne : out ≠ [] := by rw [hsh]; simp
    have hlines : splitOnChar '\n' (serializeCommits out) =
        out.map serializeLine := by
      apply splitOnChar_joinWith
      · intro x hx
        rcases List.mem_map.mp hx with ⟨c, hcm, rfl⟩
        exact serializeLine_no_newline (hfacts c hcm).2
      · simpa using hne
    rw [fetchGitLog_def, hlines]
    have hfilter1 : (out.map serializeLine).filter
        (fun line => decide (jsTrim line ≠ [])) = out.map serializeLine := by
      apply List.filter_eq_self.mpr
      intro x hx
      rcases List.mem_map.mp hx with ⟨c, hcm, rfl⟩
      exact decide_eq_true (serializeLine_nonblank (hfacts c hcm).1)
    rw [hfilter1, List.map_map]
    have hmap : out.map (parseLine ∘ serializeLine) = out := by
      have : out.map (parseLine ∘ serializeLine) = out.map id := by
        apply List.map_congr_left
        intro c hcm
        exact parseLine_serializeLine (hfacts c hcm).2
      rw [this, List.map_id]
    rw [hmap]
    apply List.filter_eq_self.mpr
    intro c hcm
    exact (hfacts c hcm).1

/-! ### The batch loop propagates the first failure -/

theorem runBatches_error_at (respond : Nat → List CommitInfo → Option Str)
    (parseJSON : Str → Except Str ResumeAnalysis) {e : Str}
    (bs : List (List CommitInfo)) :
    ∀ (i k : Nat), k < bs.length →
      (∀ j, j < k →
        ∃ a, analyzeBatch respond parseJSON (bs.getD j []) (i + j + 1) = .ok a) →
      analyzeBatch respond parseJSON (bs.getD k []) (i + k + 1) = .error e →
      runBatches respond parseJSON bs i = .error e := by
  induction bs with
  | nil =>
    intro i k hk _ _
    simp at hk
  | cons b rest ih =>
    intro i k hk hprev hfail
    cases k with
    | zero =>
      rw [List.getD_cons_zero] at hfail
      rw [runBatches, hfail]
    | succ k =>
      obtain ⟨a, ha⟩ := hprev 0 (Nat.succ_pos k)
      rw [List.getD_cons_zero] at ha
      have ha' : analyzeBatch respond parseJSON b (i + 1) = .ok a := by
        have : i + 0 + 1 = i + 1 := by omega
        rw [← this]
        exact ha
      rw [runBatches, ha']
      have hrec : runBatches respond parseJSON rest (i + 1) = .error e := by
        refine ih (i + 1) k (by simpa using hk) ?_ ?_
        · intro j hj
          obtain ⟨a', ha2⟩ := hprev (j + 1) (by omega)
          rw [List.getD_cons_succ] at ha2
          have : i + (j + 1) + 1 = i + 1 + j + 1 := by omega
          rw [this] at ha2
          exact ⟨a', ha2⟩
        · rw [List.getD_cons_succ] at hfail
          have : i + (k + 1) + 1 = i + 1 + k + 1 := by omega
          rw [this] at hfail
          exact hfail
      rw [hrec]

/-! ### Claim theorems -/

/-- Claim C1: for every raw input text, the commit filter's output has
length at most the number of non-blank input lines, is an
order-preserving subsequence of the parsed non-blank lines, and every
surviving record has non-empty hash, date, author name and author email,
a subject of trimmed length at least 3 whose lower-cased trimmed form
matches no meaningless pattern; in particular the raw line
`a1b2c3 TAB 2023-06-01 TAB Jane Doe TAB jane@x.com TAB fix: TAB` is
dropped. -/
theorem commit_filter_postcondition (raw : Str) :
    (fetchGitLog raw).length ≤
        ((splitOnChar '\n' raw).filter
          (fun line => decide (jsTrim line ≠ []))).length ∧
    (fetchGitLog raw).Sublist
        (((splitOnChar '\n' raw).filter
          (fun line => decide (jsTrim line ≠ []))).map parseLine) ∧
    (∀ c ∈ fetchGitLog raw,
        c.hash ≠ [] ∧ c.date ≠ [] ∧ c.author ≠ [] ∧ c.email ≠ [] ∧
        3 ≤ (jsTrim c.subject).length ∧
        isMeaningless (jsTrim (jsToLower c.subject)) = false) ∧
    fetchGitLog "a1b2c3\t2023-06-01\tJane Doe\tjane@x.com\tfix: \t".data = [] := by
  refine ⟨?_, ?_, ?_, by decide⟩
  · rw [fetchGitLog_def]
    have h1 := List.length_filter_le keepCommit
      (((splitOnChar '\n' raw).filter
        (fun line => decide (jsTrim line ≠ []))).map parseLine)
    simpa using h1
  · rw [fetchGitLog_def]
    exact List.filter_sublist _
  · intro c hc
    have hk := (keepCommit_eq_true_iff c).mp (mem_fetchGitLog hc).1
    have hemail : c.email ≠ [] := by
      intro h0
      apply hk.2.2.2.2.2.2.1
      rw [h0]
      rfl
    exact ⟨hk.1, hk.2.1, hk.2.2.1, hemail, hk.2.2.2.2.1, hk.2.2.2.2.2.2.2⟩

/-- Witness for C1 at a concrete raw line that survives the filter. -/
theorem commit_filter_postcondition_witness :
    3 ≤ (jsTrim "Add retry logic to uploader".data).length ∧
    "a1b2c3".data ≠ ([] : Str) := by
  have h := (commit_filter_postcondition
      "a1b2c3\t2023-06-01\tJane Doe\tjane@x.com\tAdd retry logic to uploader\tHandles transient 5xx errors".data).2.2.1
    ⟨"a1b2c3".data, "2023-06-01".data, "Jane Doe".data, "jane@x.com".data,
      "Add retry logic to uploader".data, "Handles transient 5xx errors".data⟩
    (by decide)
  exact ⟨h.2.2.2.2.1, h.1⟩

/-- Claim C2: the merged report's summary is the partial summaries joined
with single spaces in batch order; each of the five list fields is the
batch-order concatenation of the partials' lists, deduplicated
preserving first-seen order, truncated to the first 5 entries; hence
every merged list field has at most 5 entries and no duplicates. -/
theorem report_merger_correct (analyses : List ResumeAnalysis) :
    (mergeBatchAnalyses analyses).summary =
        joinWith [' '] (analyses.map (fun a => a.summary)) ∧
    (mergeBatchAnalyses analyses).keyAchievements =
        (dedupFirstSeen ((analyses.map (fun a => a.keyAchievements)).flatten)).take 5 ∧
    (mergeBatchAnalyses analyses).technicalSkills =
        (dedupFirstSeen ((analyses.map (fun a => a.technicalSkills)).flatten)).take 5 ∧
    (mergeBatchAnalyses analyses).businessImpact =
        (dedupFirstSeen ((analyses.map (fun a => a.businessImpact)).flatten)).take 5 ∧
    (mergeBatchAnalyses analyses).problemSolving =
        (dedupFirstSeen ((analyses.map (fun a => a.problemSolving)).flatten)).take 5 ∧
    (mergeBatchAnalyses analyses).leadership =
        (dedupFirstSeen ((analyses.map (fun a => a.leadership)).flatten)).take 5 ∧
    (mergeBatchAnalyses analyses).keyAchievements.length ≤ 5 ∧
    (mergeBatchAnalyses analyses).technicalSkills.length ≤ 5 ∧
    (mergeBatchAnalyses analyses).businessImpact.length ≤ 5 ∧
    (mergeBatchAnalyses analyses).problemSolving.length ≤ 5 ∧
    (mergeBatchAnalyses analyses).leadership.length ≤ 5 ∧
    (mergeBatchAnalyses analyses).keyAchievements.Nodup ∧
    (mergeBatchAnalyses analyses).technicalSkills.Nodup ∧
    (mergeBatchAnalyses analyses).businessImpact.Nodup ∧
    (mergeBatchAnalyses analyses).problemSolving.Nodup ∧
    (mergeBatchAnalyses analyses).leadership.Nodup := by
  refine ⟨rfl, ?_, ?_, ?_, ?_, ?_,
    length_take_jsSetDedup_le _, length_take_jsSetDedup_le _,
    length_take_jsSetDedup_le _, length_take_jsSetDedup_le _,
    length_take_jsSetDedup_le _,
    nodup_take_jsSetDedup _, nodup_take_jsSetDedup _, nodup_take_jsSetDedup _,
    nodup_take_jsSetDedup _, nodup_take_jsSetDedup _⟩ <;>
  · rw [← jsSetDedup_eq_dedupFirstSeen]
    rfl

/-- Claim C3: the batches concatenate back to the original sequence, every
batch has between 1 and 20 commits, only the last batch may be smaller
than 20, and 45 commits yield batches of sizes 20, 20 and 5. -/
theorem batch_partition_cover (l : List CommitInfo) :
    (makeBatches l).flatten = l ∧
    (∀ b ∈ makeBatches l, 1 ≤ b.length ∧ b.length ≤ 20) ∧
    (∀ b ∈ (makeBatches l).dropLast, b.length = 20) ∧
    (l.length = 45 → (makeBatches l).map List.length = [20, 20, 5]) := by
  refine ⟨?_, ?_, ?_, ?_⟩
  · have := batchLoop_flatten l l.length 0 (by omega)
    simpa [makeBatches] using this
  · intro b hb
    exact batchLoop_sizes l l.length 0 (by omega) b (by simpa [makeBatches] using hb)
  · intro b hb
    exact batchLoop_full_but_last l l.length 0 (by omega) b
      (by simpa [makeBatches] using hb)
  · intro h45
    unfold makeBatches
    rw [batchLoop_eq, if_pos (by omega), batchLoop_eq, if_pos (by omega),
      batchLoop_eq, if_pos (by omega), batchLoop_eq, if_neg (by omega)]
    simp [List.length_take, List.length_drop, h45]

/-- Witness for C3 at a concrete 45-commit list. -/
theorem batch_partition_cover_witness :
    (makeBatches (List.replicate 45
      (⟨[], [], [], [], [], []⟩ : CommitInfo))).map List.length = [20, 20, 5] :=
  (batch_partition_cover
    (List.replicate 45 (⟨[], [], [], [], [], []⟩ : CommitInfo))).2.2.2 (by simp)

/-- Claim C4: if the API key is present and some batch gets no usable
response text (or a response that fails to parse), while every earlier
batch succeeds, then the whole run fails with the error identifying that
batch's 1-based index, and no merged report or partial results are
returned. -/
theorem analysis_failure_total
    (apiKey : Str) (respond : Nat → List CommitInfo → Option Str)
    (parseJSON : Str → Except Str ResumeAnalysis) (commits : List CommitInfo)
    (k : Nat) (hkey : apiKey ≠ [])
    (hk : k < (makeBatches commits).length)
    (hfail :
      respond (k + 1) ((makeBatches commits).getD k []) = none ∨
      respond (k + 1) ((makeBatches commits).getD k []) = some [] ∨
      ∃ t m, respond (k + 1) ((makeBatches commits).getD k []) = some t ∧
        t ≠ [] ∧ parseJSON t = .error m)
    (hprev : ∀ j, j < k →
      ∃ a, analyzeBatch respond parseJSON
        ((makeBatches commits).getD j []) (j + 1) = .ok a) :
    ∃ inner, analyzeCommitsWithGPT (some apiKey) respond parseJSON commits =
      .error (batchFailMsg (k + 1) inner) := by
  have hab : ∃ inner,
      analyzeBatch respond parseJSON ((makeBatches commits).getD k []) (k + 1) =
        .error (batchFailMsg (k + 1) inner) := by
    rcases hfail with h | h | ⟨t, m, ht, htne, hm⟩
    · exact ⟨noResponseMsg, by unfold analyzeBatch; rw [h]⟩
    · exact ⟨noResponseMsg, by unfold analyzeBatch; rw [h]; simp⟩
    · refine ⟨m, ?_⟩
      unfold analyzeBatch
      rw [ht]
      show (if t = [] then
              Except.error (batchFailMsg (k + 1) noResponseMsg)
            else
              match parseJSON t with
              | .error m1 => Except.error (batchFailMsg (k + 1) m1)
              | .ok a => Except.ok a) =
          Except.error (batchFailMsg (k + 1) m)
      rw [if_neg htne, hm]
  obtain ⟨inner, hab⟩ := hab
  refine ⟨inner, ?_⟩
  have hrun : runBatches respond parseJSON (makeBatches commits) 0 =
      .error (batchFailMsg (k + 1) inner) := by
    refine runBatches_error_at respond parseJSON (makeBatches commits) 0 k hk ?_ ?_
    · intro j hj
      obtain ⟨a, ha⟩ := hprev j hj
      refine ⟨a, ?_⟩
      have h0 : 0 + j + 1 = j + 1 := by omega
      rw [h0]
      exact ha
    · have h0 : 0 + k + 1 = k + 1 := by omega
      rw [h0]
      exact hab
  unfold analyzeCommitsWithGPT
  rw [if_neg (by simp [hkey]), hrun]

/-- Witness for C4: a single-commit run whose only batch gets no response
text fails identifying batch 1. -/
theorem analysis_failure_total_witness :
    ∃ inner, analyzeCommitsWithGPT (some ['k']) (fun _ _ => none)
        (fun _ => .error []) [⟨['a'], ['b'], ['c'], ['d'], ['e'], []⟩] =
      .error (batchFailMsg 1 inner) := by
  have h := analysis_failure_total ['k'] (fun _ _ => none) (fun _ => .error [])
    [⟨['a'], ['b'], ['c'], ['d'], ['e'], []⟩] 0 (by decide)
    (by unfold makeBatches; rw [batchLoop_eq]; simp)
    (Or.inl rfl)
    (fun j hj => absurd hj (by omega))
  exact h

/-- Claim C5 (counterexample): the body of a parsed record is not, in
general, the bare tab-rejoined concatenation of the fields beyond the
fifth — the source additionally trims it. -/
theorem body_reconstruction_counterexample :
    (parseLine "a\tbb\tcc\tdd\tsubject\t x ".data).body ≠
      joinWith ['\t'] ((splitOnChar '\t' "a\tbb\tcc\tdd\tsubject\t x ".data).drop 5) := by
  decide

/-- Claim C5 (amended): the body of a parsed record is the tab-rejoined
concatenation of the fields beyond the fifth, **trimmed of leading and
trailing whitespace**; in particular the scenario line is kept with
body `Handles transient 5xx errors`. -/
theorem body_reconstruction_amended (line : Str) :
    (parseLine line).body =
        jsTrim (joinWith ['\t'] ((splitOnChar '\t' line).drop 5)) ∧
    jsTrim (parseLine line).body = (parseLine line).body ∧
    fetchGitLog
        "a1b2c3\t2023-06-01\tJane Doe\tjane@x.com\tAdd retry logic to uploader\tHandles transient 5xx errors".data =
      [⟨"a1b2c3".data, "2023-06-01".data, "Jane Doe".data, "jane@x.com".data,
        "Add retry logic to uploader".data, "Handles transient 5xx errors".data⟩] :=
  ⟨rfl, jsTrim_idempotent _, by decide⟩

/-- Claim C6 (counterexample): with truncation to 5 entries, the two merge
orders do not always contain the same set of strings. -/
theorem merge_commutative_counterexample :
    ['e'] ∈ (mergeBatchAnalyses
        [⟨[], [['a'], ['b'], ['c'], ['d'], ['e']], [], [], [], []⟩,
         ⟨[], [['f']], [], [], [], []⟩]).keyAchievements ∧
    ['e'] ∉ (mergeBatchAnalyses
        [⟨[], [['f']], [], [], [], []⟩,
         ⟨[], [['a'], ['b'], ['c'], ['d'], ['e']], [], [], [], []⟩]).keyAchievements := by
  decide

/-- Claim C6 (amended): whenever the deduplicated pool of a list field of
two partials has at most 5 entries (so truncation discards nothing),
`merge [P1, P2]` and `merge [P2, P1]` contain the same set of strings in
that field, differing only in order. -/
theorem merge_commutative_on_dedup_of_small (P1 P2 : ResumeAnalysis) :
    ((jsSetDedup (P1.keyAchievements ++ P2.keyAchievements)).length ≤ 5 →
      ∀ x, x ∈ (mergeBatchAnalyses [P1, P2]).keyAchievements ↔
           x ∈ (mergeBatchAnalyses [P2, P1]).keyAchievements) ∧
    ((jsSetDedup (P1.technicalSkills ++ P2.technicalSkills)).length ≤ 5 →
      ∀ x, x ∈ (mergeBatchAnalyses [P1, P2]).technicalSkills ↔
           x ∈ (mergeBatchAnalyses [P2, P1]).technicalSkills) ∧
    ((jsSetDedup (P1.businessImpact ++ P2.businessImpact)).length ≤ 5 →
      ∀ x, x ∈ (mergeBatchAnalyses [P1, P2]).businessImpact ↔
           x ∈ (mergeBatchAnalyses [P2, P1]).businessImpact) ∧
    ((jsSetDedup (P1.problemSolving ++ P2.problemSolving)).length ≤ 5 →
      ∀ x, x ∈ (mergeBatchAnalyses [P1, P2]).problemSolving ↔
           x ∈ (mergeBatchAnalyses [P2, P1]).problemSolving) ∧
    ((jsSetDedup (P1.leadership ++ P2.leadership)).length ≤ 5 →
      ∀ x, x ∈ (mergeBatchAnalyses [P1, P2]).leadership ↔
           x ∈ (mergeBatchAnalyses [P2, P1]).leadership) := by
  refine ⟨?_, ?_, ?_, ?_, ?_⟩ <;>
  · intro h x
    simp only [mergeBatchAnalyses, List.map_cons, List.map_nil,
      List.flatten_cons, List.flatten_nil, List.append_nil]
    exact take_jsSetDedup_comm_of_small _ _ h x

/-- Witness for C6 at concrete small partial reports. -/
theorem merge_commutative_on_dedup_of_small_witness :
    ['a'] ∈ (mergeBatchAnalyses
        [⟨[], [['a'], ['b']], [], [], [], []⟩,
         ⟨[], [['c']], [], [], [], []⟩]).keyAchievements ↔
    ['a'] ∈ (mergeBatchAnalyses
        [⟨[], [['c']], [], [], [], []⟩,
         ⟨[], [['a'], ['b']], [], [], [], []⟩]).keyAchievements :=
  (merge_commutative_on_dedup_of_small
    ⟨[], [['a'], ['b']], [], [], [], []⟩
    ⟨[], [['c']], [], [], [], []⟩).1 (by decide) ['a']

/-- Claim C7: re-serializing the filter's output to the tab-delimited line
format and filtering again yields exactly the same record sequence. -/
theorem filtering_idempotent (raw : Str) :
    fetchGitLog (serializeCommits (fetchGitLog raw)) = fetchGitLog raw :=
  fetchGitLog_idempotent_aux (fun _ hc => mem_fetchGitLog hc)

/-- Claim C8: merging the empty sequence of partial reports yields the
empty report — empty summary and all five list fields empty. -/
theorem merge_empty_valid :
    mergeBatchAnalyses [] =
      { summary := []
        keyAchievements := []
        technicalSkills := []
        businessImpact := []
        problemSolving := []
        leadership := [] } :=
  rfl

/-- Claim C9: the project context builder never raises — a missing file or
a thrown read/parse error yields the fixed fallback text — and on success
the context depends only on the name, the description, the first 10
runtime dependency names and the first 5 development dependency names. -/
theorem project_context_never_raises (r : PkgRead) :
    ((r = .missing ∨ r = .unreadable) →
      getProjectContext r = contextUnavailableMsg) ∧
    (∀ pkg, r = .ok pkg →
      getProjectContext r =
        getProjectContext (.ok ⟨pkg.name, pkg.description,
          some ((pkg.dependencies.getD []).take 10),
          some ((pkg.devDependencies.getD []).take 5)⟩)) := by
  constructor
  · rintro (rfl | rfl) <;> rfl
  · rintro pkg rfl
    simp [getProjectContext, List.take_take]

/-- Witness for C9 at the failure and success cases. -/
theorem project_context_never_raises_witness :
    getProjectContext .missing = contextUnavailableMsg :=
  (project_context_never_raises .missing).1 (Or.inl rfl)

/-- Claim C10: the three patterns for empty, whitespace-only and
bare-asterisk subjects are unreachable — the filter restricted to the
seven bare conventional-commit-prefix patterns computes exactly the same
output as the full ten-pattern filter, on every input. -/
theorem unreachable_patterns_refinement (raw : Str) :
    fetchGitLogSeven raw = fetchGitLog raw := by
  unfold fetchGitLogSeven fetchGitLog
  have h : keepCommitSeven = keepCommit :=
    funext fun c => (keepCommit_eq_keepCommitSeven c).symm
  rw [h]

end GitLogAI
